import Mathlib

/-
  Shallow embedding of the lemurs virtual machine (src/machine.rs) and its
  two-pass assembler (src/instruction.rs).  Machine integers u8/u16/u32/u64
  are modelled as Nat with explicit reduction modulo 2^8 / 2^16 / 2^32 / 2^64
  where the Rust code wraps.
-/

namespace Lemurs

/-- The 32 ALU operations (enum Operation in src/instruction.rs). -/
inductive Operation
  | Copy | Not | Neg | Reverse | Numzeros | Numones | And | Or | Xor
  | Shl | Shlm | Shr | Shrm | Rotl | Rotr | Addc | Addm | Subc | Subm
  | Absdiff | Mulc | Mulm | Div | Mod | Powm | Powc | Gt | Ge | Lt | Le
  | Eq | Ne
  deriving DecidableEq, Fintype

/-- Bit reversal of the low `w` bits (uN::reverse_bits): bit i of the input
becomes bit `w-1-i` of the result. -/
def reverseBits : Nat → Nat → Nat
  | 0, _ => 0
  | w + 1, b => b % 2 * 2 ^ w + reverseBits w (b / 2)

/-- Population count of the low `w` bits (uN::count_ones for values < 2^w). -/
def popcount : Nat → Nat → Nat
  | 0, _ => 0
  | w + 1, b => b % 2 + popcount w (b / 2)

/-- Rotation left by `b` within `w` bits (uN::rotate_left; the rotation
amount is reduced mod `w`). -/
def rotateLeft (w a b : Nat) : Nat :=
  a * 2 ^ (b % w) % 2 ^ w + a / 2 ^ (w - b % w)

/-- Rotation right by `b` within `w` bits (uN::rotate_right). -/
def rotateRight (w a b : Nat) : Nat :=
  a / 2 ^ (b % w) + a * 2 ^ (w - b % w) % 2 ^ w

/-- Saturating exponentiation (uN::saturating_pow for a width-w unsigned
type): clamps to the maximum value `2^w - 1` instead of overflowing. -/
def saturatingPow (w a b : Nat) : Nat :=
  if 2 ^ w ≤ a ^ b then 2 ^ w - 1 else a ^ b

/-- Machine::evaluate_operation (src/machine.rs lines 262-297): the 32-bit
operation table.  Operands and results are < 2^32. -/
def evaluate_operation (op : Operation) (a b : Nat) : Nat :=
  match op with
  | .Copy => b
  | .Not => 2 ^ 32 - 1 - b
  | .Neg => 2 ^ 32 - 1 - b
  | .Reverse => reverseBits 32 b
  | .Numzeros => 32 - popcount 32 b
  | .Numones => popcount 32 b
  | .And => Nat.land a b
  | .Or => Nat.lor a b
  | .Xor => Nat.xor a b
  | .Shl => if 32 ≤ b then 0 else a * 2 ^ b % 2 ^ 32
  | .Shlm => a * 2 ^ (b % 32) % 2 ^ 32
  | .Shr => if 32 ≤ b then 0 else a / 2 ^ b
  | .Shrm => a / 2 ^ (b % 32)
  | .Rotl => rotateLeft 32 a b
  | .Rotr => rotateRight 32 a b
  | .Addc => min (a + b) (2 ^ 32 - 1)
  | .Addm => (a + b) % 2 ^ 32
  | .Subc => a - b
  | .Subm => (a + 2 ^ 32 - b) % 2 ^ 32
  | .Absdiff => if b ≤ a then a - b else b - a
  | .Mulc => min (a * b) (2 ^ 32 - 1)
  | .Mulm => a * b % 2 ^ 32
  | .Div => a / max b 1
  | .Mod => a % max b 1
  | .Powm => saturatingPow 32 a b
  | .Powc => a ^ b % 2 ^ 32
  | .Gt => if b < a then 1 else 0
  | .Ge => if b ≤ a then 1 else 0
  | .Lt => if a < b then 1 else 0
  | .Le => if a ≤ b then 1 else 0
  | .Eq => if a = b then 1 else 0
  | .Ne => if a = b then 0 else 1

/-- Machine::evaluate_operation_wide (src/machine.rs lines 299-334): the
64-bit operation table.  Where the Rust code casts the second operand with
`b as u32` (shift, rotation and exponent amounts), the operand is first
reduced modulo 2^32. -/
def evaluate_operation_wide (op : Operation) (a b : Nat) : Nat :=
  match op with
  | .Copy => b
  | .Not => 2 ^ 64 - 1 - b
  | .Neg => 2 ^ 64 - 1 - b
  | .Reverse => reverseBits 64 b
  | .Numzeros => 64 - popcount 64 b
  | .Numones => popcount 64 b
  | .And => Nat.land a b
  | .Or => Nat.lor a b
  | .Xor => Nat.xor a b
  | .Shl => if 64 ≤ b % 2 ^ 32 then 0 else a * 2 ^ (b % 2 ^ 32) % 2 ^ 64
  | .Shlm => a * 2 ^ (b % 2 ^ 32 % 64) % 2 ^ 64
  | .Shr => if 64 ≤ b % 2 ^ 32 then 0 else a / 2 ^ (b % 2 ^ 32)
  | .Shrm => a / 2 ^ (b % 2 ^ 32 % 64)
  | .Rotl => rotateLeft 64 a (b % 2 ^ 32)
  | .Rotr => rotateRight 64 a (b % 2 ^ 32)
  | .Addc => min (a + b) (2 ^ 64 - 1)
  | .Addm => (a + b) % 2 ^ 64
  | .Subc => a - b
  | .Subm => (a + 2 ^ 64 - b) % 2 ^ 64
  | .Absdiff => if b ≤ a then a - b else b - a
  | .Mulc => min (a * b) (2 ^ 64 - 1)
  | .Mulm => a * b % 2 ^ 64
  | .Div => a / max b 1
  | .Mod => a % max b 1
  | .Powm => saturatingPow 64 a (b % 2 ^ 32)
  | .Powc => a ^ (b % 2 ^ 32) % 2 ^ 64
  | .Gt => if b < a then 1 else 0
  | .Ge => if b ≤ a then 1 else 0
  | .Lt => if a < b then 1 else 0
  | .Le => if a ≤ b then 1 else 0
  | .Eq => if a = b then 1 else 0
  | .Ne => if a = b then 0 else 1

/-- Big-endian byte decomposition of `v` into `n` bytes
(uN::to_be_bytes; the most significant byte comes first). -/
def toBeBytes : Nat → Nat → List Nat
  | 0, _ => []
  | n + 1, v => v / 2 ^ (8 * n) % 256 :: toBeBytes n v

/-- Big-endian recomposition of a byte list (uN::from_be_bytes). -/
def fromBeBytes : List Nat → Nat
  | [] => 0
  | b :: bs => b * 2 ^ (8 * bs.length) + fromBeBytes bs

/-- Read `n` consecutive bytes of a byte store starting at `base`. -/
def readBytes (f : Nat → Nat) (base : Nat) : Nat → List Nat
  | 0 => []
  | n + 1 => f base :: readBytes f (base + 1) n

/-- Write a list of bytes into a byte store at consecutive indices
starting at `base`. -/
def writeBytes (f : Nat → Nat) (base : Nat) : List Nat → (Nat → Nat)
  | [] => f
  | b :: bs => writeBytes (Function.update f base b) (base + 1) bs

/-- Decoded instructions (enum Instruction in src/instruction.rs).
Register ids, addresses and immediates are Nats (nibbles, u16, u32/u64
respectively, bounded by construction at the decoding site). -/
inductive Instruction
  | Output (a : Nat)
  | OutputW (a : Nat)
  | LoadMem (a m : Nat)
  | LoadMemW (a m : Nat)
  | StoreMem (a m : Nat)
  | StoreMemW (a m : Nat)
  | Jmp (m : Nat)
  | Jo (a m : Nat)
  | Op (o : Operation) (a b : Nat)
  | OpW (o : Operation) (a b : Nat)
  | OpImm (o : Operation) (a b : Nat) (i : Nat)
  | OpImmW (o : Operation) (a b : Nat) (i : Nat)

/-- struct Machine (src/machine.rs): program memory, program counter and
the 256-byte register file (modelled as a byte store indexed by Nat). -/
structure Machine where
  memory : List Nat
  program_counter : Nat
  register_file : Nat → Nat

/-- Machine::new (src/machine.rs lines 17-24): rejects an empty memory
buffer (the Rust assert), zeroes PC and registers. -/
def Machine.new (memory : List Nat) : Option Machine :=
  if memory.isEmpty then none
  else some ⟨memory, 0, fun _ => 0⟩

/-- Machine::read_register (src/machine.rs lines 144-151): a narrow
register id reads the 4-byte big-endian window at offset id*4. -/
def read_register (f : Nat → Nat) (register : Nat) : Nat :=
  fromBeBytes (readBytes f (register * 4) 4)

/-- Machine::read_register_wide: a wide register id reads the 8-byte
big-endian window at offset id*8. -/
def read_register_wide (f : Nat → Nat) (register : Nat) : Nat :=
  fromBeBytes (readBytes f (register * 8) 8)

/-- Machine::write_register (src/machine.rs lines 161-167). -/
def write_register (f : Nat → Nat) (register value : Nat) : Nat → Nat :=
  writeBytes f (register * 4) (toBeBytes 4 value)

/-- Machine::write_register_wide (src/machine.rs lines 168-174). -/
def write_register_wide (f : Nat → Nat) (register value : Nat) : Nat → Nat :=
  writeBytes f (register * 8) (toBeBytes 8 value)

/-- Machine::read_memory (src/machine.rs lines 176-183): 4 bytes read at
consecutive addresses, each reduced modulo the memory length. -/
def read_memory (mem : List Nat) (address : Nat) : Nat :=
  fromBeBytes ((List.range 4).map fun i => mem.getD ((address + i) % mem.length) 0)

/-- Machine::read_memory_wide (src/machine.rs lines 184-191). -/
def read_memory_wide (mem : List Nat) (address : Nat) : Nat :=
  fromBeBytes ((List.range 8).map fun i => mem.getD ((address + i) % mem.length) 0)

/-- Store a byte list at consecutive circular addresses (the loops of
Machine::write_memory / write_memory_wide; List.set keeps the length, so
the modulus is the same at every step, as in the Rust code). -/
def writeMemBytes (mem : List Nat) (address : Nat) : List Nat → List Nat
  | [] => mem
  | b :: bs => writeMemBytes (mem.set (address % mem.length) b) (address + 1) bs

/-- Machine::write_memory (src/machine.rs lines 193-198). -/
def write_memory (mem : List Nat) (address value : Nat) : List Nat :=
  writeMemBytes mem address (toBeBytes 4 value)

/-- Machine::write_memory_wide (src/machine.rs lines 199-204). -/
def write_memory_wide (mem : List Nat) (address value : Nat) : List Nat :=
  writeMemBytes mem address (toBeBytes 8 value)

/-- Machine::next_instruction_byte (src/machine.rs lines 206-214): reads
the byte at PC (none models the Rust out-of-bounds panic), then advances
PC, wrapping to 0 when it reaches the end of memory. -/
def next_instruction_byte (m : Machine) : Option (Nat × Machine) :=
  if h : m.program_counter < m.memory.length then
    some (m.memory.get ⟨m.program_counter, h⟩,
      { m with program_counter :=
          if m.memory.length ≤ m.program_counter + 1 then 0
          else m.program_counter + 1 })
  else none

/-- Fetch `n` consecutive instruction bytes. -/
def nextBytes : Nat → Machine → Option (List Nat × Machine)
  | 0, m => some ([], m)
  | n + 1, m => do
    let (b, m) ← next_instruction_byte m
    let (bs, m) ← nextBytes n m
    some (b :: bs, m)

/-- Machine::decode_operation (src/machine.rs lines 224-260): the 5-bit
operation number; none models the unreachable panic arm. -/
def decode_operation (n : Nat) : Option Operation :=
  match n with
  | 0 => some .Copy
  | 1 => some .Not
  | 2 => some .Neg
  | 3 => some .Reverse
  | 4 => some .Numzeros
  | 5 => some .Numones
  | 6 => some .And
  | 7 => some .Or
  | 8 => some .Xor
  | 9 => some .Shl
  | 10 => some .Shlm
  | 11 => some .Shr
  | 12 => some .Shrm
  | 13 => some .Rotl
  | 14 => some .Rotr
  | 15 => some .Addc
  | 16 => some .Addm
  | 17 => some .Subc
  | 18 => some .Subm
  | 19 => some .Absdiff
  | 20 => some .Mulc
  | 21 => some .Mulm
  | 22 => some .Div
  | 23 => some .Mod
  | 24 => some .Powm
  | 25 => some .Powc
  | 26 => some .Gt
  | 27 => some .Ge
  | 28 => some .Lt
  | 29 => some .Le
  | 30 => some .Eq
  | 31 => some .Ne
  | _ => none

/-- Machine::fetch (src/machine.rs lines 33-97).  The opcode byte is split
into nibbles n0a (high) and n0b (low); the high nibble selects the
instruction family.  none models the two unreachable panic arms and any
out-of-bounds PC.  Since the low nibble n0b is < 16, the Rust expression
`((n0a & 1) << 4) | n0b` equals `n0a % 2 * 16 + n0b`. -/
def fetch (m : Machine) : Option (Instruction × Machine) := do
  let (b0, m) ← next_instruction_byte m
  let n0a := b0 / 16 % 16
  let n0b := b0 % 16
  if n0a = 0 then some (.Output n0b, m)
  else if n0a = 1 then some (.OutputW n0b, m)
  else if n0a = 2 then do
    let (bs, m) ← nextBytes 2 m
    some (.LoadMem n0b (fromBeBytes bs), m)
  else if n0a = 3 then do
    let (bs, m) ← nextBytes 2 m
    some (.LoadMemW n0b (fromBeBytes bs), m)
  else if n0a = 4 then do
    let (bs, m) ← nextBytes 2 m
    some (.StoreMem n0b (fromBeBytes bs), m)
  else if n0a = 5 then do
    let (bs, m) ← nextBytes 2 m
    some (.StoreMemW n0b (fromBeBytes bs), m)
  else if n0a = 6 then do
    let (bs, m) ← nextBytes 2 m
    some (.Jmp (fromBeBytes bs), m)
  else if n0a = 7 then do
    let (bs, m) ← nextBytes 2 m
    some (.Jo n0b (fromBeBytes bs), m)
  else if n0a < 16 then do
    let op ← decode_operation (n0a % 2 * 16 + n0b)
    let (ab, m) ← next_instruction_byte m
    let a := ab / 16 % 16
    let b := ab % 16
    if n0a / 2 = 4 then some (.Op op a b, m)
    else if n0a / 2 = 5 then some (.OpW op a b, m)
    else if n0a / 2 = 6 then do
      let (bs, m) ← nextBytes 4 m
      some (.OpImm op a b (fromBeBytes bs), m)
    else if n0a / 2 = 7 then do
      let (bs, m) ← nextBytes 8 m
      some (.OpImmW op a b (fromBeBytes bs), m)
    else none
  else none

/-- Machine::execute (src/machine.rs lines 99-142).  Returns the new
machine state and the bytes appended to the output sink. -/
def execute (instruction : Instruction) (m : Machine) : Machine × List Nat :=
  match instruction with
  | .Output a => (m, [read_register m.register_file a % 256])
  | .OutputW a =>
      let v := read_register_wide m.register_file a % 65536
      (m, [v / 256, v % 256])
  | .LoadMem a adr =>
      ({ m with register_file :=
          write_register m.register_file a (read_memory m.memory adr) }, [])
  | .LoadMemW a adr =>
      ({ m with register_file :=
          write_register_wide m.register_file a (read_memory_wide m.memory adr) }, [])
  | .StoreMem a adr =>
      ({ m with memory :=
          write_memory m.memory adr (read_register m.register_file a) }, [])
  | .StoreMemW a adr =>
      ({ m with memory :=
          write_memory_wide m.memory adr (read_register_wide m.register_file a) }, [])
  | .Jmp adr => ({ m with program_counter := adr % m.memory.length }, [])
  | .Jo a adr =>
      if read_register m.register_file a % 2 = 1 then
        ({ m with program_counter := adr % m.memory.length }, [])
      else (m, [])
  | .Op o a b =>
      let v := evaluate_operation o (read_register m.register_file a)
        (read_register m.register_file b)
      ({ m with register_file := write_register m.register_file a v }, [])
  | .OpW o a b =>
      let v := evaluate_operation_wide o (read_register_wide m.register_file a)
        (read_register_wide m.register_file b)
      ({ m with register_file := write_register_wide m.register_file a v }, [])
  | .OpImm o a b i =>
      let v := evaluate_operation o (read_register m.register_file b) i
      ({ m with register_file := write_register m.register_file a v }, [])
  | .OpImmW o a b i =>
      let v := evaluate_operation_wide o (read_register_wide m.register_file b) i
      ({ m with register_file := write_register_wide m.register_file a v }, [])

/-- One fetch-decode-execute cycle. -/
def step (m : Machine) : Option (Machine × List Nat) :=
  (fetch m).map fun im => execute im.1 im.2

/-- Machine::run (src/machine.rs lines 26-31): `n` cycles, collecting the
output bytes. -/
def run : Nat → Machine → Option (Machine × List Nat)
  | 0, m => some (m, [])
  | n + 1, m => do
    let (m1, o1) ← step m
    let (m2, o2) ← run n m1
    some (m2, o1 ++ o2)

/-- The machine-state invariant: memory is non-empty and the program
counter is strictly inside it. -/
def Wf (m : Machine) : Prop :=
  0 < m.memory.length ∧ m.program_counter < m.memory.length

instance (m : Machine) : Decidable (Wf m) := by
  unfold Wf; infer_instance

/-- Register-file well-formedness: every cell holds one byte. -/
def RegsWf (f : Nat → Nat) : Prop := ∀ i, f i < 256

/-- str::split at characters satisfying `p`: maximal pieces between
separator characters, empty pieces kept (splitting the empty text yields
one empty piece). -/
def splitListBy (p : Char → Bool) : List Char → List (List Char)
  | [] => [[]]
  | c :: rest =>
    if p c then [] :: splitListBy p rest
    else
      match splitListBy p rest with
      | [] => [[c]]
      | g :: gs => (c :: g) :: gs

/-- str::trim: drop whitespace from both ends. -/
def trimList (l : List Char) : List Char :=
  ((l.dropWhile Char.isWhitespace).reverse.dropWhile Char.isWhitespace).reverse

/-- The digits part of uN::from_str: a non-empty all-decimal-digit token,
read in base 10. -/
def parseDigits : List Char → Option Nat
  | [] => none
  | l =>
    if l.all Char.isDigit then
      some (l.foldl (fun a c => a * 10 + (c.toNat - 48)) 0)
    else none

/-- uN::from_str allows one optional leading plus sign. -/
def stripPlus : List Char → List Char
  | '+' :: rest => rest
  | l => l

/-- Parse of an unsigned decimal literal (uN::from_str: an optional
leading plus sign, digits, value within the type's range). -/
def parseUnsigned (bound : Nat) (t : List Char) : Option Nat :=
  match parseDigits (stripPlus t) with
  | some n => if n < bound then some n else none
  | none => none

/-- Parse of a signed 16-bit decimal literal (i16::from_str), returned as
the two's-complement bit pattern that i16::to_be_bytes serialises. -/
def parseI16bits (t : List Char) : Option Nat :=
  match t with
  | '-' :: rest =>
    match parseDigits rest with
    | some n => if n ≤ 2 ^ 15 then some ((2 ^ 16 - n) % 2 ^ 16) else none
    | none => none
  | _ =>
    match parseDigits (stripPlus t) with
    | some n => if n < 2 ^ 15 then some n else none
    | none => none

/-- The assembler state threaded through pass 1 (the locals `data`,
`labels`, `label_uses` of assemble in src/instruction.rs): emitted bytes,
the label table (a later definition shadows an earlier one, like
HashMap::insert), and the recorded label uses. -/
structure AsmState where
  data : List Nat
  labels : List (String × Nat)
  uses : List (String × Nat)
  deriving DecidableEq

/-- Label-table lookup (HashMap::get; the most recent insertion wins). -/
def lookupLabel (labels : List (String × Nat)) (name : String) : Option Nat :=
  (labels.find? fun p => p.1 == name).map Prod.snd

/-- The encode_register closure (src/instruction.rs lines 77-82): expects
a token `rN` with N parsed as u8; none models the panics. -/
def encode_register (words : List (List Char)) :
    Option (Nat × List (List Char)) :=
  match words with
  | [] => none
  | w :: ws =>
    match w with
    | 'r' :: digits =>
      match parseUnsigned 256 digits with
      | some i => some (i, ws)
      | none => none
    | _ => none

/-- The encode_address closure (src/instruction.rs lines 84-95): a token
parsing as a signed 16-bit literal is emitted immediately; any other token
is recorded as a label use at the current offset and two placeholder
bytes are reserved. -/
def encode_address (words : List (List Char)) (st : AsmState) :
    Option (List (List Char) × AsmState) :=
  match words with
  | [] => none
  | w :: ws =>
    match parseI16bits w with
    | some p => some (ws, { st with data := st.data ++ [p / 256, p % 256] })
    | none => some (ws, { st with
        uses := st.uses ++ [(String.mk w, st.data.length)],
        data := st.data ++ [0, 0] })

/-- The encode_operation closure (src/instruction.rs lines 97-133): the
fixed ALU mnemonic table; none is the fatal unknown-name panic. -/
def encode_operation (opstr : String) : Option Nat :=
  match opstr with
  | "copy" => some 0
  | "not" => some 1
  | "neg" => some 2
  | "reverse" => some 3
  | "numones" => some 4
  | "numzeros" => some 5
  | "and" => some 6
  | "or" => some 7
  | "xor" => some 8
  | "shl" => some 9
  | "shlm" => some 10
  | "shr" => some 11
  | "shrm" => some 12
  | "rotl" => some 13
  | "rotr" => some 14
  | "addc" => some 15
  | "addm" => some 16
  | "subc" => some 17
  | "subm" => some 18
  | "absdiff" => some 19
  | "mulc" => some 20
  | "mulm" => some 21
  | "div" => some 22
  | "mod" => some 23
  | "powm" => some 24
  | "powc" => some 25
  | "gt" => some 26
  | "ge" => some 27
  | "lt" => some 28
  | "le" => some 29
  | "eq" => some 30
  | "ne" => some 31
  | _ => none

/-- The opcode byte of an ALU instruction: `0b1000_0000`, the wide bit,
the immediate bit, and the 5-bit operation number (all disjoint bit
ranges, so `|` is Nat.lor). -/
def aluOpcode (wide immediate : Bool) (opnum : Nat) : Nat :=
  Nat.lor (Nat.lor (Nat.lor 128 (if wide then 32 else 0))
    (if immediate then 64 else 0)) opnum

/-- The ALU arm of the pass-1 mnemonic dispatch (the final `_` arm of the
match in assemble, src/instruction.rs lines 178-215), after the trailing
`w` and `imm` suffixes have been stripped from the mnemonic: emits the
opcode byte, the register byte (the u8 expression `(a << 4) | b`, i.e.
`a * 16 % 256 ||| b`), and for the immediate form the big-endian operand
bytes of a parsed u32/u64 literal. -/
def encodeAlu (st : AsmState) (opstr : String) (wide immediate : Bool)
    (ws : List (List Char)) : Option AsmState :=
  match encode_operation opstr with
  | none => none
  | some opnum =>
    match encode_register ws with
    | none => none
    | some (a, ws2) =>
      match encode_register ws2 with
      | none => none
      | some (b, ws3) =>
        if immediate then
          match ws3 with
          | [] => none
          | w :: _ =>
            match parseUnsigned (if wide then 2 ^ 64 else 2 ^ 32) w with
            | none => none
            | some i =>
              some { st with data := (st.data ++
                [aluOpcode wide immediate opnum, Nat.lor (a * 16 % 256) b] ++
                toBeBytes (if wide then 8 else 4) i) }
        else
          some { st with data := (st.data ++
            [aluOpcode wide immediate opnum, Nat.lor (a * 16 % 256) b]) }

/-- One line of pass 1 (the body of the `for line in text.lines()` loop
of assemble, src/instruction.rs lines 135-217).  The line is trimmed, the
comment after a semicolon stripped (`split(";").next()`), tokens split on
whitespace with empty tokens dropped (split_whitespace); a token ending
in a colon defines a label at the current offset; otherwise the first
token selects a fixed mnemonic, or an ALU mnemonic `op[w][imm]` — the
trailing `w` is stripped before the trailing `imm`, matched here on the
reversed character list. -/
def processLine (st : AsmState) (line : List Char) : Option AsmState :=
  match (splitListBy (fun c => c = ';') (trimList line)).headD [] with
  | [] => some st
  | c0 :: cs =>
    match (splitListBy Char.isWhitespace (c0 :: cs)).filter (fun w => w != []) with
    | [] => none
    | first :: ws =>
      match first.reverse with
      | ':' :: nameRev =>
        some { st with labels :=
          (String.mk nameRev.reverse, st.data.length) :: st.labels }
      | _ =>
        match String.mk first with
        | "output" =>
          (encode_register ws).map fun iw =>
            { st with data := st.data ++ [Nat.lor 0 iw.1] }
        | "outputw" =>
          (encode_register ws).map fun iw =>
            { st with data := st.data ++ [Nat.lor 16 iw.1] }
        | "loadmem" =>
          match encode_register ws with
          | none => none
          | some (i, ws2) =>
            (encode_address ws2 { st with data := st.data ++ [Nat.lor 32 i] }).map Prod.snd
        | "loadmemw" =>
          match encode_register ws with
          | none => none
          | some (i, ws2) =>
            (encode_address ws2 { st with data := st.data ++ [Nat.lor 48 i] }).map Prod.snd
        | "storemem" =>
          match encode_register ws with
          | none => none
          | some (i, ws2) =>
            (encode_address ws2 { st with data := st.data ++ [Nat.lor 64 i] }).map Prod.snd
        | "storememw" =>
          match encode_register ws with
          | none => none
          | some (i, ws2) =>
            (encode_address ws2 { st with data := st.data ++ [Nat.lor 80 i] }).map Prod.snd
        | "jmp" =>
          (encode_address ws { st with data := st.data ++ [96] }).map Prod.snd
        | "jo" =>
          match encode_register ws with
          | none => none
          | some (i, ws2) =>
            (encode_address ws2 { st with data := st.data ++ [Nat.lor 112 i] }).map Prod.snd
        | _ =>
          match first.reverse with
          | 'w' :: 'm' :: 'm' :: 'i' :: r2 =>
            encodeAlu st (String.mk r2.reverse) true true ws
          | 'w' :: r1 =>
            encodeAlu st (String.mk r1.reverse) true false ws
          | 'm' :: 'm' :: 'i' :: r2 =>
            encodeAlu st (String.mk r2.reverse) false true ws
          | _ =>
            encodeAlu st (String.mk first) false false ws

/-- Pass 1 over all lines, in order. -/
def pass1 : List (List Char) → AsmState → Option AsmState
  | [], st => some st
  | line :: rest, st =>
    match processLine st line with
    | none => none
    | some st2 => pass1 rest st2

/-- Pass 2, the backpatch loop (src/instruction.rs lines 219-224): each
recorded label use is resolved against the label table (none models the
fatal unwrap on an undefined label) and the big-endian bytes of the
offset, truncated to u16, overwrite the two reserved bytes (none models
the index panic; the reserved bytes are always in range). -/
def patchUses (data : List Nat) :
    List (String × Nat) → List (String × Nat) → Option (List Nat)
  | [], _ => some data
  | (name, location) :: rest, labels =>
    match lookupLabel labels name with
    | none => none
    | some value =>
      if location + 1 < data.length then
        patchUses ((data.set location (value % 2 ^ 16 / 256)).set
          (location + 1) (value % 2 ^ 16 % 256)) rest labels
      else none

/-- assemble (src/instruction.rs lines 71-227): pass 1 over the lines of
the text (split at newline characters), then the backpatch pass. -/
def assemble (text : String) : Option (List Nat) :=
  match pass1 (splitListBy (fun c => c = Char.ofNat 10) text.data) ⟨[], [], []⟩ with
  | none => none
  | some st => patchUses st.data st.uses st.labels

/-- The pass-1 state invariant behind backpatching: every recorded use
points at two reserved bytes inside the emitted data, and distinct uses
occupy disjoint byte ranges (in increasing order of recording). -/
def UsesOk (st : AsmState) : Prop :=
  (∀ u ∈ st.uses, u.2 + 2 ≤ st.data.length) ∧
  st.uses.Pairwise fun u v => u.2 + 2 ≤ v.2

/-- The spec §4.3 base mnemonic of each operation (its lower-cased name). -/
def specName : Operation → String
  | .Copy => "copy"
  | .Not => "not"
  | .Neg => "neg"
  | .Reverse => "reverse"
  | .Numzeros => "numzeros"
  | .Numones => "numones"
  | .And => "and"
  | .Or => "or"
  | .Xor => "xor"
  | .Shl => "shl"
  | .Shlm => "shlm"
  | .Shr => "shr"
  | .Shrm => "shrm"
  | .Rotl => "rotl"
  | .Rotr => "rotr"
  | .Addc => "addc"
  | .Addm => "addm"
  | .Subc => "subc"
  | .Subm => "subm"
  | .Absdiff => "absdiff"
  | .Mulc => "mulc"
  | .Mulm => "mulm"
  | .Div => "div"
  | .Mod => "mod"
  | .Powm => "powm"
  | .Powc => "powc"
  | .Gt => "gt"
  | .Ge => "ge"
  | .Lt => "lt"
  | .Le => "le"
  | .Eq => "eq"
  | .Ne => "ne"

/-- The permutation of operations actually realised by assembling a §4.3
mnemonic and decoding the resulting operation number: the identity except
that Numzeros and Numones are exchanged. -/
def swapNumZerosOnes : Operation → Operation
  | .Numzeros => .Numones
  | .Numones => .Numzeros
  | op => op

/-- A small sample machine used in witnesses. -/
def sampleMachine : Machine := ⟨[1, 2, 3, 4], 0, fun _ => 0⟩

/-- A program whose jump references the label before its definition. -/
def forwardProg : String := "jmp l\nl:"

/-- A program whose jump references the label after its definition, at
the same resolved offset 3. -/
def backwardProg : String := "jo r0 0\nl:\njmp l"

/-- Fetching one byte succeeds from any well-formed state and preserves
the invariant, the memory and the register file. -/
theorem nib_total (m : Machine) (h : Wf m) :
    ∃ b m', next_instruction_byte m = some (b, m') ∧ Wf m' ∧
      m'.memory = m.memory ∧ m'.register_file = m.register_file := by
  obtain ⟨h0, hpc⟩ := h
  refine ⟨m.memory.get ⟨m.program_counter, hpc⟩,
    { m with program_counter :=
        if m.memory.length ≤ m.program_counter + 1 then 0
        else m.program_counter + 1 },
    ?_, ⟨h0, ?_⟩, rfl, rfl⟩
  · unfold next_instruction_byte
    rw [dif_pos hpc]
  · by_cases hle : m.memory.length ≤ m.program_counter + 1
    · simpa [hle] using h0
    · simpa [hle] using Nat.lt_of_not_le hle

/-- Fetching `n` bytes succeeds from any well-formed state and preserves
the invariant, the memory and the register file. -/
theorem nextBytes_total (n : Nat) (m : Machine) (h : Wf m) :
    ∃ bs m', nextBytes n m = some (bs, m') ∧ Wf m' ∧
      m'.memory = m.memory ∧ m'.register_file = m.register_file := by
  induction n generalizing m with
  | zero => exact ⟨[], m, rfl, h, rfl, rfl⟩
  | succ n ih =>
    obtain ⟨b, m1, h1, hw1, hm1, hr1⟩ := nib_total m h
    obtain ⟨bs, m2, h2, hw2, hm2, hr2⟩ := ih m1 hw1
    exact ⟨b :: bs, m2, by simp [nextBytes, h1, h2], hw2,
      hm2.trans hm1, hr2.trans hr1⟩

/-- Every 5-bit operation number decodes. -/
theorem decode_isSome : ∀ n, n < 32 → (decode_operation n).isSome := by decide

/-- Fetch succeeds from any well-formed state, for any memory contents,
and preserves the invariant, the memory and the register file: the panic
arms of Machine::fetch and Machine::decode_operation are unreachable. -/
theorem fetch_total (m : Machine) (h : Wf m) :
    ∃ i m', fetch m = some (i, m') ∧ Wf m' ∧
      m'.memory = m.memory ∧ m'.register_file = m.register_file := by
  obtain ⟨b0, m1, hn, h1, hm1, hr1⟩ := nib_total m h
  have hb : b0 % 16 < 16 := Nat.mod_lt _ (by norm_num)
  unfold fetch
  rw [hn]
  simp only [Option.bind_eq_bind, Option.some_bind]
  set k := b0 / 16 % 16 with hkdef
  have hk : k < 16 := Nat.mod_lt _ (by norm_num)
  interval_cases k
  · exact ⟨_, m1, by rfl, h1, hm1, hr1⟩
  · exact ⟨_, m1, by rfl, h1, hm1, hr1⟩
  · obtain ⟨bs, m2, h2, hw2, hm2, hr2⟩ := nextBytes_total 2 m1 h1
    exact ⟨_, m2, by rw [h2]; rfl, hw2, hm2.trans hm1, hr2.trans hr1⟩
  · obtain ⟨bs, m2, h2, hw2, hm2, hr2⟩ := nextBytes_total 2 m1 h1
    exact ⟨_, m2, by rw [h2]; rfl, hw2, hm2.trans hm1, hr2.trans hr1⟩
  · obtain ⟨bs, m2, h2, hw2, hm2, hr2⟩ := nextBytes_total 2 m1 h1
    exact ⟨_, m2, by rw [h2]; rfl, hw2, hm2.trans hm1, hr2.trans hr1⟩
  · obtain ⟨bs, m2, h2, hw2, hm2, hr2⟩ := nextBytes_total 2 m1 h1
    exact ⟨_, m2, by rw [h2]; rfl, hw2, hm2.trans hm1, hr2.trans hr1⟩
  · obtain ⟨bs, m2, h2, hw2, hm2, hr2⟩ := nextBytes_total 2 m1 h1
    exact ⟨_, m2, by rw [h2]; rfl, hw2, hm2.trans hm1, hr2.trans hr1⟩
  · obtain ⟨bs, m2, h2, hw2, hm2, hr2⟩ := nextBytes_total 2 m1 h1
    exact ⟨_, m2, by rw [h2]; rfl, hw2, hm2.trans hm1, hr2.trans hr1⟩
  · obtain ⟨op, hop⟩ := Option.isSome_iff_exists.mp
      (decode_isSome (8 % 2 * 16 + b0 % 16) (by omega))
    obtain ⟨ab, m2, h2, hw2, hm2, hr2⟩ := nib_total m1 h1
    exact ⟨_, m2, by rw [hop, h2]; rfl, hw2, hm2.trans hm1, hr2.trans hr1⟩
  · obtain ⟨op, hop⟩ := Option.isSome_iff_exists.mp
      (decode_isSome (9 % 2 * 16 + b0 % 16) (by omega))
    obtain ⟨ab, m2, h2, hw2, hm2, hr2⟩ := nib_total m1 h1
    exact ⟨_, m2, by rw [hop, h2]; rfl, hw2, hm2.trans hm1, hr2.trans hr1⟩
  · obtain ⟨op, hop⟩ := Option.isSome_iff_exists.mp
      (decode_isSome (10 % 2 * 16 + b0 % 16) (by omega))
    obtain ⟨ab, m2, h2, hw2, hm2, hr2⟩ := nib_total m1 h1
    exact ⟨_, m2, by rw [hop, h2]; rfl, hw2, hm2.trans hm1, hr2.trans hr1⟩
  · obtain ⟨op, hop⟩ := Option.isSome_iff_exists.mp
      (decode_isSome (11 % 2 * 16 + b0 % 16) (by omega))
    obtain ⟨ab, m2, h2, hw2, hm2, hr2⟩ := nib_total m1 h1
    exact ⟨_, m2, by rw [hop, h2]; rfl, hw2, hm2.trans hm1, hr2.trans hr1⟩
  · obtain ⟨op, hop⟩ := Option.isSome_iff_exists.mp
      (decode_isSome (12 % 2 * 16 + b0 % 16) (by omega))
    obtain ⟨ab, m2, h2, hw2, hm2, hr2⟩ := nib_total m1 h1
    obtain ⟨bs, m3, h3, hw3, hm3, hr3⟩ := nextBytes_total 4 m2 hw2
    exact ⟨_, m3, by simp only [hop, h2, h3, Option.some_bind]; rfl, hw3,
      (hm3.trans hm2).trans hm1, (hr3.trans hr2).trans hr1⟩
  · obtain ⟨op, hop⟩ := Option.isSome_iff_exists.mp
      (decode_isSome (13 % 2 * 16 + b0 % 16) (by omega))
    obtain ⟨ab, m2, h2, hw2, hm2, hr2⟩ := nib_total m1 h1
    obtain ⟨bs, m3, h3, hw3, hm3, hr3⟩ := nextBytes_total 4 m2 hw2
    exact ⟨_, m3, by simp only [hop, h2, h3, Option.some_bind]; rfl, hw3,
      (hm3.trans hm2).trans hm1, (hr3.trans hr2).trans hr1⟩
  · obtain ⟨op, hop⟩ := Option.isSome_iff_exists.mp
      (decode_isSome (14 % 2 * 16 + b0 % 16) (by omega))
    obtain ⟨ab, m2, h2, hw2, hm2, hr2⟩ := nib_total m1 h1
    obtain ⟨bs, m3, h3, hw3, hm3, hr3⟩ := nextBytes_total 8 m2 hw2
    exact ⟨_, m3, by simp only [hop, h2, h3, Option.some_bind]; rfl, hw3,
      (hm3.trans hm2).trans hm1, (hr3.trans hr2).trans hr1⟩
  · obtain ⟨op, hop⟩ := Option.isSome_iff_exists.mp
      (decode_isSome (15 % 2 * 16 + b0 % 16) (by omega))
    obtain ⟨ab, m2, h2, hw2, hm2, hr2⟩ := nib_total m1 h1
    obtain ⟨bs, m3, h3, hw3, hm3, hr3⟩ := nextBytes_total 8 m2 hw2
    exact ⟨_, m3, by simp only [hop, h2, h3, Option.some_bind]; rfl, hw3,
      (hm3.trans hm2).trans hm1, (hr3.trans hr2).trans hr1⟩

/-- Circular stores preserve the memory length. -/
theorem writeMemBytes_length (bs : List Nat) (mem : List Nat) (address : Nat) :
    (writeMemBytes mem address bs).length = mem.length := by
  induction bs generalizing mem address with
  | nil => rfl
  | cons b bs ih => simp [writeMemBytes, ih]

/-- Executing any decoded instruction preserves the invariant and the
memory length. -/
theorem execute_wf (i : Instruction) (m : Machine) (h : Wf m) :
    Wf (execute i m).1 ∧ (execute i m).1.memory.length = m.memory.length := by
  obtain ⟨h0, hpc⟩ := h
  cases i with
  | Output a => exact ⟨⟨h0, hpc⟩, rfl⟩
  | OutputW a => exact ⟨⟨h0, hpc⟩, rfl⟩
  | LoadMem a adr => exact ⟨⟨h0, hpc⟩, rfl⟩
  | LoadMemW a adr => exact ⟨⟨h0, hpc⟩, rfl⟩
  | StoreMem a adr =>
    refine ⟨⟨?_, ?_⟩, ?_⟩ <;>
      simp [execute, write_memory, writeMemBytes_length, h0, hpc]
  | StoreMemW a adr =>
    refine ⟨⟨?_, ?_⟩, ?_⟩ <;>
      simp [execute, write_memory_wide, writeMemBytes_length, h0, hpc]
  | Jmp adr => exact ⟨⟨h0, Nat.mod_lt _ h0⟩, rfl⟩
  | Jo a adr =>
    by_cases hodd : read_register m.register_file a % 2 = 1
    · exact ⟨⟨by simpa [execute, hodd] using h0,
        by simpa [execute, hodd] using Nat.mod_lt adr h0⟩,
        by simp [execute, hodd]⟩
    · exact ⟨⟨by simpa [execute, hodd] using h0,
        by simpa [execute, hodd] using hpc⟩, by simp [execute, hodd]⟩
  | Op o a b => exact ⟨⟨h0, hpc⟩, rfl⟩
  | OpW o a b => exact ⟨⟨h0, hpc⟩, rfl⟩
  | OpImm o a b i => exact ⟨⟨h0, hpc⟩, rfl⟩
  | OpImmW o a b i => exact ⟨⟨h0, hpc⟩, rfl⟩

/-- One fetch-decode-execute cycle succeeds from any well-formed state,
preserves the invariant and the memory length. -/
theorem step_total (m : Machine) (h : Wf m) :
    ∃ r, step m = some r ∧ Wf r.1 ∧ r.1.memory.length = m.memory.length := by
  obtain ⟨i, m', hf, hw, hmem, -⟩ := fetch_total m h
  obtain ⟨hw2, hl2⟩ := execute_wf i m' hw
  refine ⟨execute i m', by simp [step, hf], hw2, ?_⟩
  rw [hl2, hmem]

/-- Running any number of cycles succeeds from any well-formed state,
preserves the invariant and the memory length. -/
theorem run_total (n : Nat) (m : Machine) (h : Wf m) :
    ∃ r, run n m = some r ∧ Wf r.1 ∧ r.1.memory.length = m.memory.length := by
  induction n generalizing m with
  | zero => exact ⟨(m, []), rfl, h, rfl⟩
  | succ n ih =>
    obtain ⟨r1, h1, hw1, hl1⟩ := step_total m h
    obtain ⟨r2, h2, hw2, hl2⟩ := ih r1.1 hw1
    exact ⟨(r2.1, r1.2 ++ r2.2), by simp [run, h1, h2], hw2, hl2.trans hl1⟩

theorem reverseBits_lt (w b : Nat) : reverseBits w b < 2 ^ w := by
  induction w generalizing b with
  | zero => simp [reverseBits]
  | succ w ih =>
    have h2 := ih (b / 2)
    have h1 : b % 2 = 0 ∨ b % 2 = 1 := by omega
    simp only [reverseBits, pow_succ]
    rcases h1 with h | h <;> rw [h] <;> omega

theorem popcount_le (w b : Nat) : popcount w b ≤ w := by
  induction w generalizing b with
  | zero => simp [popcount]
  | succ w ih =>
    have h1 : b % 2 < 2 := Nat.mod_lt _ (by norm_num)
    have h2 := ih (b / 2)
    simp only [popcount]
    omega

theorem rotateLeft_lt (w a b : Nat) (hw : 0 < w) (ha : a < 2 ^ w) :
    rotateLeft w a b < 2 ^ w := by
  unfold rotateLeft
  set s := b % w with hs
  have hsw : s < w := Nat.mod_lt _ hw
  have hsplit : 2 ^ (w - s) * 2 ^ s = 2 ^ w := by
    rw [← pow_add]; congr 1; omega
  have hr : a % 2 ^ (w - s) < 2 ^ (w - s) := Nat.mod_lt _ (Nat.two_pow_pos _)
  have h1 : a * 2 ^ s % 2 ^ w = a % 2 ^ (w - s) * 2 ^ s := by
    rw [← hsplit, Nat.mul_mod_mul_right]
  have hq : a / 2 ^ (w - s) < 2 ^ s := by
    rw [Nat.div_lt_iff_lt_mul (Nat.two_pow_pos _)]
    calc a < 2 ^ w := ha
    _ = 2 ^ s * 2 ^ (w - s) := by rw [← pow_add]; congr 1; omega
  rw [h1]
  calc a % 2 ^ (w - s) * 2 ^ s + a / 2 ^ (w - s)
      < a % 2 ^ (w - s) * 2 ^ s + 2 ^ s := by omega
  _ = (a % 2 ^ (w - s) + 1) * 2 ^ s := by ring
  _ ≤ 2 ^ (w - s) * 2 ^ s := Nat.mul_le_mul_right _ (by omega)
  _ = 2 ^ w := hsplit

theorem rotateRight_lt (w a b : Nat) (hw : 0 < w) (ha : a < 2 ^ w) :
    rotateRight w a b < 2 ^ w := by
  unfold rotateRight
  set s := b % w with hs
  have hsw : s < w := Nat.mod_lt _ hw
  have hsplit : 2 ^ s * 2 ^ (w - s) = 2 ^ w := by
    rw [← pow_add]; congr 1; omega
  have hr : a % 2 ^ s < 2 ^ s := Nat.mod_lt _ (Nat.two_pow_pos _)
  have h1 : a * 2 ^ (w - s) % 2 ^ w = a % 2 ^ s * 2 ^ (w - s) := by
    rw [← hsplit, Nat.mul_mod_mul_right]
  have hq : a / 2 ^ s < 2 ^ (w - s) := by
    rw [Nat.div_lt_iff_lt_mul (Nat.two_pow_pos _)]
    calc a < 2 ^ w := ha
    _ = 2 ^ (w - s) * 2 ^ s := by rw [← pow_add]; congr 1; omega
  rw [h1]
  calc a / 2 ^ s + a % 2 ^ s * 2 ^ (w - s)
      < 2 ^ (w - s) + a % 2 ^ s * 2 ^ (w - s) := by omega
  _ = (a % 2 ^ s + 1) * 2 ^ (w - s) := by ring
  _ ≤ 2 ^ s * 2 ^ (w - s) := Nat.mul_le_mul_right _ (by omega)
  _ = 2 ^ w := hsplit

theorem saturatingPow_lt (w a b : Nat) : saturatingPow w a b < 2 ^ w := by
  have hz := Nat.two_pow_pos w
  unfold saturatingPow
  split <;> omega

/-- The 32-bit operation table stays within 32 bits. -/
theorem evaluate_operation_lt (op : Operation) (a b : Nat)
    (ha : a < 2 ^ 32) (hb : b < 2 ^ 32) : evaluate_operation op a b < 2 ^ 32 := by
  have hz : (0 : Nat) < 2 ^ 32 := by norm_num
  cases op with
  | Copy => exact hb
  | Not => simp only [evaluate_operation]; omega
  | Neg => simp only [evaluate_operation]; omega
  | Reverse => exact reverseBits_lt 32 b
  | Numzeros =>
    have h1 := popcount_le 32 b
    simp only [evaluate_operation]; omega
  | Numones =>
    have h1 := popcount_le 32 b
    simp only [evaluate_operation]; omega
  | And => exact Nat.bitwise_lt_two_pow ha hb
  | Or => exact Nat.bitwise_lt_two_pow ha hb
  | Xor => exact Nat.bitwise_lt_two_pow ha hb
  | Shl =>
    simp only [evaluate_operation]
    split
    · exact hz
    · exact Nat.mod_lt _ hz
  | Shlm => exact Nat.mod_lt _ hz
  | Shr =>
    simp only [evaluate_operation]
    split
    · exact hz
    · exact lt_of_le_of_lt (Nat.div_le_self _ _) ha
  | Shrm => exact lt_of_le_of_lt (Nat.div_le_self _ _) ha
  | Rotl => exact rotateLeft_lt 32 a b (by norm_num) ha
  | Rotr => exact rotateRight_lt 32 a b (by norm_num) ha
  | Addc => simp only [evaluate_operation]; omega
  | Addm => exact Nat.mod_lt _ hz
  | Subc => exact lt_of_le_of_lt (Nat.sub_le _ _) ha
  | Subm => exact Nat.mod_lt _ hz
  | Absdiff => simp only [evaluate_operation]; split <;> omega
  | Mulc => simp only [evaluate_operation]; omega
  | Mulm => exact Nat.mod_lt _ hz
  | Div => exact lt_of_le_of_lt (Nat.div_le_self _ _) ha
  | Mod => exact lt_of_le_of_lt (Nat.mod_le _ _) ha
  | Powm => exact saturatingPow_lt 32 a b
  | Powc => exact Nat.mod_lt _ hz
  | Gt => simp only [evaluate_operation]; split <;> omega
  | Ge => simp only [evaluate_operation]; split <;> omega
  | Lt => simp only [evaluate_operation]; split <;> omega
  | Le => simp only [evaluate_operation]; split <;> omega
  | Eq => simp only [evaluate_operation]; split <;> omega
  | Ne => simp only [evaluate_operation]; split <;> omega

/-- The 64-bit operation table stays within 64 bits. -/
theorem evaluate_operation_wide_lt (op : Operation) (a b : Nat)
    (ha : a < 2 ^ 64) (hb : b < 2 ^ 64) :
    evaluate_operation_wide op a b < 2 ^ 64 := by
  have hz : (0 : Nat) < 2 ^ 64 := by norm_num
  cases op with
  | Copy => exact hb
  | Not => simp only [evaluate_operation_wide]; omega
  | Neg => simp only [evaluate_operation_wide]; omega
  | Reverse => exact reverseBits_lt 64 b
  | Numzeros =>
    have h1 := popcount_le 64 b
    simp only [evaluate_operation_wide]; omega
  | Numones =>
    have h1 := popcount_le 64 b
    simp only [evaluate_operation_wide]; omega
  | And => exact Nat.bitwise_lt_two_pow ha hb
  | Or => exact Nat.bitwise_lt_two_pow ha hb
  | Xor => exact Nat.bitwise_lt_two_pow ha hb
  | Shl =>
    simp only [evaluate_operation_wide]
    split
    · exact hz
    · exact Nat.mod_lt _ hz
  | Shlm => exact Nat.mod_lt _ hz
  | Shr =>
    simp only [evaluate_operation_wide]
    split
    · exact hz
    · exact lt_of_le_of_lt (Nat.div_le_self _ _) ha
  | Shrm => exact lt_of_le_of_lt (Nat.div_le_self _ _) ha
  | Rotl => exact rotateLeft_lt 64 a (b % 2 ^ 32) (by norm_num) ha
  | Rotr => exact rotateRight_lt 64 a (b % 2 ^ 32) (by norm_num) ha
  | Addc => simp only [evaluate_operation_wide]; omega
  | Addm => exact Nat.mod_lt _ hz
  | Subc => exact lt_of_le_of_lt (Nat.sub_le _ _) ha
  | Subm => exact Nat.mod_lt _ hz
  | Absdiff => simp only [evaluate_operation_wide]; split <;> omega
  | Mulc => simp only [evaluate_operation_wide]; omega
  | Mulm => exact Nat.mod_lt _ hz
  | Div => exact lt_of_le_of_lt (Nat.div_le_self _ _) ha
  | Mod => exact lt_of_le_of_lt (Nat.mod_le _ _) ha
  | Powm => exact saturatingPow_lt 64 a (b % 2 ^ 32)
  | Powc => exact Nat.mod_lt _ hz
  | Gt => simp only [evaluate_operation_wide]; split <;> omega
  | Ge => simp only [evaluate_operation_wide]; split <;> omega
  | Lt => simp only [evaluate_operation_wide]; split <;> omega
  | Le => simp only [evaluate_operation_wide]; split <;> omega
  | Eq => simp only [evaluate_operation_wide]; split <;> omega
  | Ne => simp only [evaluate_operation_wide]; split <;> omega

theorem toBeBytes_length (n v : Nat) : (toBeBytes n v).length = n := by
  induction n generalizing v with
  | zero => rfl
  | succ n ih => simp [toBeBytes, ih]

theorem toBeBytes_mem_lt (n v : Nat) : ∀ x ∈ toBeBytes n v, x < 256 := by
  induction n generalizing v with
  | zero => simp [toBeBytes]
  | succ n ih =>
    intro x hx
    simp only [toBeBytes, List.mem_cons] at hx
    rcases hx with h | h
    · omega
    · exact ih v x h

theorem fromBeBytes_toBeBytes (n v : Nat) :
    fromBeBytes (toBeBytes n v) = v % 2 ^ (8 * n) := by
  induction n generalizing v with
  | zero => simp [toBeBytes, fromBeBytes, Nat.mod_one]
  | succ n ih =>
    calc fromBeBytes (toBeBytes (n + 1) v)
        = v / 2 ^ (8 * n) % 256 * 2 ^ (8 * n) + v % 2 ^ (8 * n) := by
          simp [toBeBytes, fromBeBytes, toBeBytes_length, ih]
    _ = v % (2 ^ (8 * n) * 256) := by rw [Nat.mod_mul]; ring
    _ = v % 2 ^ (8 * (n + 1)) := by
          rw [show 8 * (n + 1) = 8 * n + 8 from by ring, pow_add]
          norm_num

theorem fromBeBytes_lt (bs : List Nat) (h : ∀ x ∈ bs, x < 256) :
    fromBeBytes bs < 2 ^ (8 * bs.length) := by
  induction bs with
  | nil => simp [fromBeBytes]
  | cons b bs ih =>
    have hb : b < 256 := h b (List.mem_cons_self _ _)
    have hr := ih fun x hx => h x (List.mem_cons_of_mem _ hx)
    simp only [fromBeBytes, List.length_cons]
    calc b * 2 ^ (8 * bs.length) + fromBeBytes bs
        < b * 2 ^ (8 * bs.length) + 2 ^ (8 * bs.length) := by omega
    _ = (b + 1) * 2 ^ (8 * bs.length) := by ring
    _ ≤ 256 * 2 ^ (8 * bs.length) := Nat.mul_le_mul_right _ (by omega)
    _ = 2 ^ (8 * (bs.length + 1)) := by
          rw [show 8 * (bs.length + 1) = 8 + 8 * bs.length from by ring, pow_add]
          norm_num

theorem readBytes_length (f : Nat → Nat) (base n : Nat) :
    (readBytes f base n).length = n := by
  induction n generalizing base with
  | zero => rfl
  | succ n ih => simp [readBytes, ih]

theorem readBytes_mem_lt (f : Nat → Nat) (hf : RegsWf f) (base n : Nat) :
    ∀ x ∈ readBytes f base n, x < 256 := by
  induction n generalizing base with
  | zero => simp [readBytes]
  | succ n ih =>
    intro x hx
    simp only [readBytes, List.mem_cons] at hx
    rcases hx with h | h
    · exact h ▸ hf base
    · exact ih (base + 1) x h

theorem writeBytes_apply_lt (bs : List Nat) (f : Nat → Nat) (base x : Nat)
    (h : x < base) : writeBytes f base bs x = f x := by
  induction bs generalizing f base with
  | nil => rfl
  | cons b bs ih =>
    rw [writeBytes, ih _ _ (by omega), Function.update_apply, if_neg (by omega)]

theorem writeBytes_apply_in (bs : List Nat) (f : Nat → Nat) (base i : Nat)
    (h : i < bs.length) : writeBytes f base bs (base + i) = bs.getD i 0 := by
  induction bs generalizing f base i with
  | nil => simp at h
  | cons b bs ih =>
    cases i with
    | zero =>
      rw [Nat.add_zero, writeBytes, writeBytes_apply_lt _ _ _ _ (by omega),
        Function.update_apply, if_pos rfl]
      rfl
    | succ i =>
      rw [show base + (i + 1) = (base + 1) + i from by omega, writeBytes,
        ih _ _ _ (by simpa using h)]
      rfl

theorem readBytes_writeBytes (bs : List Nat) (f : Nat → Nat) (base : Nat) :
    readBytes (writeBytes f base bs) base bs.length = bs := by
  induction bs generalizing f base with
  | nil => rfl
  | cons b bs ih =>
    show readBytes _ base (bs.length + 1) = _
    rw [readBytes, writeBytes]
    congr 1
    · rw [writeBytes_apply_lt _ _ _ _ (by omega), Function.update_apply, if_pos rfl]
    · exact ih (Function.update f base b) (base + 1)

theorem readBytes_add (f : Nat → Nat) (n1 n2 : Nat) : ∀ base,
    readBytes f base (n1 + n2) = readBytes f base n1 ++ readBytes f (base + n1) n2 := by
  induction n1 with
  | zero => intro base; simp [readBytes]
  | succ n1 ih =>
    intro base
    rw [show n1 + 1 + n2 = (n1 + n2) + 1 from by omega,
      show base + (n1 + 1) = base + 1 + n1 from by omega]
    simp only [readBytes, List.cons_append]
    rw [ih (base + 1)]

/-- Reading a narrow register back after writing it returns the value
reduced to 32 bits. -/
theorem read_write_register (f : Nat → Nat) (id v : Nat) :
    read_register (write_register f id v) id = v % 2 ^ 32 := by
  unfold read_register write_register
  have h : ∀ bs : List Nat, bs.length = 4 →
      fromBeBytes (readBytes (writeBytes f (id * 4) bs) (id * 4) 4) = fromBeBytes bs := by
    intro bs hl
    rw [← hl, readBytes_writeBytes]
  rw [h (toBeBytes 4 v) (toBeBytes_length 4 v), fromBeBytes_toBeBytes]

/-- Reading a wide register back after writing it returns the value
reduced to 64 bits. -/
theorem read_write_register_wide (f : Nat → Nat) (id v : Nat) :
    read_register_wide (write_register_wide f id v) id = v % 2 ^ 64 := by
  unfold read_register_wide write_register_wide
  have h : ∀ bs : List Nat, bs.length = 8 →
      fromBeBytes (readBytes (writeBytes f (id * 8) bs) (id * 8) 8) = fromBeBytes bs := by
    intro bs hl
    rw [← hl, readBytes_writeBytes]
  rw [h (toBeBytes 8 v) (toBeBytes_length 8 v), fromBeBytes_toBeBytes]

theorem read_register_lt (f : Nat → Nat) (hf : RegsWf f) (id : Nat) :
    read_register f id < 2 ^ 32 := by
  have h := fromBeBytes_lt (readBytes f (id * 4) 4) (readBytes_mem_lt f hf _ _)
  rwa [readBytes_length] at h

theorem read_register_wide_lt (f : Nat → Nat) (hf : RegsWf f) (id : Nat) :
    read_register_wide f id < 2 ^ 64 := by
  have h := fromBeBytes_lt (readBytes f (id * 8) 8) (readBytes_mem_lt f hf _ _)
  rwa [readBytes_length] at h

/-- C1: running never faults.  Construction rejects an empty memory and
establishes the invariant; from any state with non-empty memory and PC
inside it, every fetch-decode-execute cycle succeeds (no panic, no
out-of-bounds access), and after any number of cycles the PC is still
within [0, len(M)) and the memory length is unchanged — all memory
addresses and the PC having been reduced modulo len(M) before use. -/
theorem machine_run_never_faults :
    (∀ mem m, Machine.new mem = some m → Wf m) ∧
    (∀ m, Wf m → ∃ r, step m = some r ∧ Wf r.1 ∧
      r.1.memory.length = m.memory.length) ∧
    (∀ n m, Wf m → ∃ r, run n m = some r ∧ Wf r.1 ∧
      r.1.memory.length = m.memory.length) := by
  refine ⟨?_, step_total, run_total⟩
  intro mem m hm
  unfold Machine.new at hm
  by_cases he : mem.isEmpty
  · rw [if_pos he] at hm
    exact absurd hm (by simp)
  · rw [if_neg he] at hm
    have h0 : 0 < mem.length := by
      cases mem with
      | nil => simp at he
      | cons x xs => simp
    cases hm
    exact ⟨h0, h0⟩

theorem machine_run_never_faults_witness :
    ∃ r, run 6 sampleMachine = some r ∧ Wf r.1 ∧
      r.1.memory.length = sampleMachine.memory.length :=
  machine_run_never_faults.2.2 6 sampleMachine (by decide)

/-- C2: decoding is total: every 5-bit operation number (all 32 values)
decodes to exactly one operation, and from every well-formed machine
state — hence for every value of the opcode byte — fetch returns exactly
one instruction; the panic branches of Machine::fetch and
Machine::decode_operation are unreachable. -/
theorem decoding_total :
    (∀ n, n < 32 → (decode_operation n).isSome) ∧
    (∀ m, Wf m → (fetch m).isSome) := by
  refine ⟨decode_isSome, fun m h => ?_⟩
  obtain ⟨i, m', hf, -⟩ := fetch_total m h
  simp [hf]

theorem decoding_total_witness :
    (decode_operation 31).isSome ∧ (fetch sampleMachine).isSome :=
  ⟨decoding_total.1 31 (by norm_num),
   decoding_total.2 sampleMachine (by decide)⟩

/-- C3 counterexample: Powm is not wrapping exponentiation.  At 32 bits,
Powm(2,32) evaluates to 2^32-1 (saturation) while 2^32 mod 2^32 = 0; at
64 bits the exponent is first truncated mod 2^32, so Powm(2, 2^32+1)
evaluates to 2, while 2^(2^32+1) mod 2^64 = 0. -/
theorem powm_not_wrapping :
    evaluate_operation .Powm 2 32 = 2 ^ 32 - 1 ∧
    (2 : Nat) ^ 32 % 2 ^ 32 = 0 ∧
    evaluate_operation_wide .Powm 2 (2 ^ 32 + 1) = 2 ∧
    (2 : Nat) ^ (2 ^ 32 + 1) % 2 ^ 64 = 0 := by
  refine ⟨by decide, by decide, by decide, ?_⟩
  obtain ⟨c, hc⟩ := pow_dvd_pow 2 (show 64 ≤ 2 ^ 32 + 1 by norm_num)
  rw [hc, Nat.mul_mod_right]

/-- C3 amended: Powm computes saturating exponentiation at both widths —
min(a^b, 2^width - 1) — with the exponent first truncated modulo 2^32 at
the 64-bit width (the Rust `b as u32` cast). -/
theorem powm_saturating :
    (∀ a b, evaluate_operation .Powm a b = min (a ^ b) (2 ^ 32 - 1)) ∧
    (∀ a b, evaluate_operation_wide .Powm a b =
      min (a ^ (b % 2 ^ 32)) (2 ^ 64 - 1)) := by
  constructor
  · intro a b
    simp only [evaluate_operation, saturatingPow]
    split
    · exact (min_eq_right (by omega)).symm
    · exact (min_eq_left (by omega)).symm
  · intro a b
    simp only [evaluate_operation_wide, saturatingPow]
    split
    · exact (min_eq_right (by omega)).symm
    · exact (min_eq_left (by omega)).symm

/-- C9 counterexample: at the 64-bit width Powc is not a^b mod 2^64 for
all operands: the exponent is truncated mod 2^32, so Powc(2, 2^32+1)
evaluates to 2, while 2^(2^32+1) mod 2^64 = 0. -/
theorem powc_wide_truncates_exponent :
    evaluate_operation_wide .Powc 2 (2 ^ 32 + 1) = 2 ∧
    (2 : Nat) ^ (2 ^ 32 + 1) % 2 ^ 64 = 0 := by
  refine ⟨by decide, ?_⟩
  obtain ⟨c, hc⟩ := pow_dvd_pow 2 (show 64 ≤ 2 ^ 32 + 1 by norm_num)
  rw [hc, Nat.mul_mod_right]

/-- C9 amended: Powc computes wrapping (modular, not saturating)
exponentiation, with the exponent first truncated modulo 2^32 at the
64-bit width: at 32 bits Powc(a,b) = a^b mod 2^32 for all operands, and
at 64 bits Powc(a,b) = a^(b mod 2^32) mod 2^64, which equals
a^b mod 2^64 whenever b < 2^32. -/
theorem powc_wrapping :
    (∀ a b, evaluate_operation .Powc a b = a ^ b % 2 ^ 32) ∧
    (∀ a b, evaluate_operation_wide .Powc a b = a ^ (b % 2 ^ 32) % 2 ^ 64) ∧
    (∀ a b, b < 2 ^ 32 →
      evaluate_operation_wide .Powc a b = a ^ b % 2 ^ 64) := by
  refine ⟨fun a b => rfl, fun a b => rfl, fun a b hb => ?_⟩
  simp only [evaluate_operation_wide]
  rw [Nat.mod_eq_of_lt hb]

theorem powc_wrapping_witness :
    evaluate_operation_wide .Powc 3 5 = 3 ^ 5 % 2 ^ 64 :=
  powc_wrapping.2.2 3 5 (by norm_num)

/-- C5 counterexample: the wide checked shifts do not return 0 for every
shift amount ≥ 64: the amount is truncated mod 2^32 first, so with
b = 2^32 (which is ≥ 64) both Shl(1, 2^32) and Shr(1, 2^32) evaluate
to 1, not 0. -/
theorem checked_shift_wide_truncates :
    evaluate_operation_wide .Shl 1 (2 ^ 32) = 1 ∧
    evaluate_operation_wide .Shr 1 (2 ^ 32) = 1 ∧
    64 ≤ 2 ^ 32 := by
  refine ⟨by decide, by decide, by norm_num⟩

/-- C5 amended: at 32 bits the checked shifts return 0 exactly when the
shift amount is ≥ 32 and the ordinary shift otherwise; at 64 bits the
shift amount is first truncated modulo 2^32 (the Rust `b as u32` cast),
and the checked test compares that truncated amount against 64. -/
theorem checked_shift_semantics :
    (∀ a b, 32 ≤ b → evaluate_operation .Shl a b = 0) ∧
    (∀ a b, b < 32 → evaluate_operation .Shl a b = a * 2 ^ b % 2 ^ 32) ∧
    (∀ a b, 32 ≤ b → evaluate_operation .Shr a b = 0) ∧
    (∀ a b, b < 32 → evaluate_operation .Shr a b = a / 2 ^ b) ∧
    (∀ a b, 64 ≤ b % 2 ^ 32 → evaluate_operation_wide .Shl a b = 0 ∧
      evaluate_operation_wide .Shr a b = 0) ∧
    (∀ a b, b % 2 ^ 32 < 64 →
      evaluate_operation_wide .Shl a b = a * 2 ^ (b % 2 ^ 32) % 2 ^ 64 ∧
      evaluate_operation_wide .Shr a b = a / 2 ^ (b % 2 ^ 32)) := by
  refine ⟨?_, ?_, ?_, ?_, ?_, ?_⟩
  · intro a b h
    simp only [evaluate_operation]
    rw [if_pos h]
  · intro a b h
    simp only [evaluate_operation]
    rw [if_neg (by omega)]
  · intro a b h
    simp only [evaluate_operation]
    rw [if_pos h]
  · intro a b h
    simp only [evaluate_operation]
    rw [if_neg (by omega)]
  · intro a b h
    simp only [evaluate_operation_wide]
    exact ⟨by rw [if_pos h], by rw [if_pos h]⟩
  · intro a b h
    simp only [evaluate_operation_wide]
    exact ⟨by rw [if_neg (by omega)], by rw [if_neg (by omega)]⟩

theorem checked_shift_semantics_witness :
    evaluate_operation .Shl 1 35 = 0 ∧ evaluate_operation .Shr 1 35 = 0 :=
  ⟨checked_shift_semantics.1 1 35 (by norm_num),
   checked_shift_semantics.2.2.1 1 35 (by norm_num)⟩

/-- C6: the six concrete 32-bit operation cases of the spec:
Addc(0xFFFFFFFF,1) = 0xFFFFFFFF, Addm(0xFFFFFFFF,1) = 0, Shl(1,32) = 0,
Shlm(1,32) = 1, Div(10,0) = 10 (divisor floored to 1), and
Rotl(0x80000000,1) = 1. -/
theorem concrete_operation_cases :
    evaluate_operation .Addc 4294967295 1 = 4294967295 ∧
    evaluate_operation .Addm 4294967295 1 = 0 ∧
    evaluate_operation .Shl 1 32 = 0 ∧
    evaluate_operation .Shlm 1 32 = 1 ∧
    evaluate_operation .Div 10 0 = 10 ∧
    evaluate_operation .Rotl 2147483648 1 = 1 := by
  refine ⟨by decide, by decide, by decide, by decide, by decide, by decide⟩

/-- C4: the assembler name table and the machine decoder disagree on
numzeros/numones: encode_operation sends "numones" to 4 and "numzeros"
to 5, while decode_operation sends 4 to Numzeros and 5 to Numones, so
assembling a §4.3 mnemonic and decoding yields the operation with
Numzeros and Numones exchanged and every other operation unchanged. -/
theorem encode_decode_swaps_numzeros :
    ∀ op : Operation,
      (encode_operation (specName op)).bind decode_operation =
        some (swapNumZerosOnes op) := by
  decide

/-- C7: narrow and wide register views alias the same bytes by the
offset law narrow id*4 / wide id*8: after writing a 64-bit value v to
wide register k, narrow register 2k reads the high 32 bits of v and
narrow register 2k+1 reads the low 32 bits (big-endian byte order). -/
theorem register_views_alias :
    ∀ (f : Nat → Nat) (k v : Nat), v < 2 ^ 64 →
      read_register (write_register_wide f k v) (2 * k) = v / 2 ^ 32 ∧
      read_register (write_register_wide f k v) (2 * k + 1) = v % 2 ^ 32 := by
  intro f k v hv
  have hfull : readBytes (write_register_wide f k v) (k * 8) 8 = toBeBytes 8 v := by
    have h := readBytes_writeBytes (toBeBytes 8 v) f (k * 8)
    rw [toBeBytes_length] at h
    exact h
  have hsplit := readBytes_add (write_register_wide f k v) 4 4 (k * 8)
  norm_num at hsplit
  rw [hfull] at hsplit
  have hlen : (readBytes (write_register_wide f k v) (k * 8) 4).length = 4 :=
    readBytes_length _ _ _
  have hfirst : readBytes (write_register_wide f k v) (k * 8) 4 =
      (toBeBytes 8 v).take 4 := by
    have h := List.take_left (readBytes (write_register_wide f k v) (k * 8) 4)
      (readBytes (write_register_wide f k v) (k * 8 + 4) 4)
    rw [hlen] at h
    rw [hsplit]
    exact h.symm
  have hsecond : readBytes (write_register_wide f k v) (k * 8 + 4) 4 =
      (toBeBytes 8 v).drop 4 := by
    have h := List.drop_left (readBytes (write_register_wide f k v) (k * 8) 4)
      (readBytes (write_register_wide f k v) (k * 8 + 4) 4)
    rw [hlen] at h
    rw [hsplit]
    exact h.symm
  constructor
  · unfold read_register
    rw [show 2 * k * 4 = k * 8 from by ring, hfirst]
    simp only [toBeBytes, fromBeBytes]
    norm_num
    omega
  · unfold read_register
    rw [show (2 * k + 1) * 4 = k * 8 + 4 from by ring, hsecond]
    simp only [toBeBytes, fromBeBytes]
    norm_num
    omega

theorem register_views_alias_witness :
    read_register (write_register_wide (fun _ => 0) 1 (5 * 2 ^ 32 + 7)) 2 =
      (5 * 2 ^ 32 + 7) / 2 ^ 32 ∧
    read_register (write_register_wide (fun _ => 0) 1 (5 * 2 ^ 32 + 7)) 3 =
      (5 * 2 ^ 32 + 7) % 2 ^ 32 :=
  register_views_alias (fun _ => 0) 1 (5 * 2 ^ 32 + 7) (by norm_num)

/-- C10: OpImm (and OpImmW) writes evaluate(op, value of register b, i)
into register a: the register operand comes from the second register id
and is the left argument, the immediate is the right argument, and the
prior value of the destination register a is not an operand — unlike the
register-register form Op, which evaluates op on the destination's own
value and register b. -/
theorem opimm_operand_order :
    (∀ (m : Machine) (o : Operation) (a b i : Nat),
      RegsWf m.register_file → i < 2 ^ 32 →
      read_register (execute (.OpImm o a b i) m).1.register_file a =
        evaluate_operation o (read_register m.register_file b) i) ∧
    (∀ (m : Machine) (o : Operation) (a b i : Nat),
      RegsWf m.register_file → i < 2 ^ 64 →
      read_register_wide (execute (.OpImmW o a b i) m).1.register_file a =
        evaluate_operation_wide o (read_register_wide m.register_file b) i) ∧
    (∀ (m : Machine) (o : Operation) (a b : Nat),
      RegsWf m.register_file →
      read_register (execute (.Op o a b) m).1.register_file a =
        evaluate_operation o (read_register m.register_file a)
          (read_register m.register_file b)) := by
  refine ⟨?_, ?_, ?_⟩
  · intro m o a b i hreg hi
    simp only [execute]
    rw [read_write_register]
    exact Nat.mod_eq_of_lt
      (evaluate_operation_lt o _ i (read_register_lt _ hreg b) hi)
  · intro m o a b i hreg hi
    simp only [execute]
    rw [read_write_register_wide]
    exact Nat.mod_eq_of_lt
      (evaluate_operation_wide_lt o _ i (read_register_wide_lt _ hreg b) hi)
  · intro m o a b hreg
    simp only [execute]
    rw [read_write_register]
    exact Nat.mod_eq_of_lt (evaluate_operation_lt o _ _
      (read_register_lt _ hreg a) (read_register_lt _ hreg b))

theorem opimm_operand_order_witness :
    read_register (execute (.OpImm .Addm 1 2 7) sampleMachine).1.register_file 1 =
      evaluate_operation .Addm (read_register sampleMachine.register_file 2) 7 :=
  opimm_operand_order.1 sampleMachine .Addm 1 2 7
    (fun j => by norm_num [sampleMachine]) (by norm_num)

theorem usesOk_data_grow (st st2 : AsmState) (h : UsesOk st)
    (hd : st.data.length ≤ st2.data.length) (hu : st2.uses = st.uses) :
    UsesOk st2 :=
  ⟨fun u hu2 => le_trans (h.1 u (hu ▸ hu2)) hd, hu ▸ h.2⟩

theorem encode_address_usesOk (ws : List (List Char)) (st : AsmState)
    (r : List (List Char) × AsmState) (h : encode_address ws st = some r)
    (hok : UsesOk st) : UsesOk r.2 := by
  obtain ⟨h1, h2⟩ := hok
  cases ws with
  | nil => simp [encode_address] at h
  | cons w ws2 =>
    simp only [encode_address] at h
    cases hq : parseI16bits w with
    | some p =>
      rw [hq] at h
      cases h
      exact usesOk_data_grow st _ ⟨h1, h2⟩ (by simp) rfl
    | none =>
      rw [hq] at h
      cases h
      constructor
      · intro u hu
        simp only [List.mem_append, List.mem_singleton] at hu
        rcases hu with hu | rfl
        · have := h1 u hu
          simp only [List.length_append, List.length_cons, List.length_nil]
          omega
        · simp only [List.length_append, List.length_cons, List.length_nil]
          omega
      · rw [List.pairwise_append]
        refine ⟨h2, List.pairwise_singleton _ _, ?_⟩
        intro a ha b hb
        simp only [List.mem_singleton] at hb
        subst hb
        exact h1 a ha

theorem encodeAlu_usesOk (st : AsmState) (opstr : String)
    (wide immediate : Bool) (ws : List (List Char)) (st2 : AsmState)
    (hp : encodeAlu st opstr wide immediate ws = some st2)
    (hok : UsesOk st) : UsesOk st2 := by
  unfold encodeAlu at hp
  split at hp
  · exact absurd hp (by simp)
  · split at hp
    · exact absurd hp (by simp)
    · split at hp
      · exact absurd hp (by simp)
      · split at hp
        · split at hp
          · exact absurd hp (by simp)
          · split at hp
            · exact absurd hp (by simp)
            · cases hp
              refine usesOk_data_grow st _ hok ?_ rfl
              simp only [List.length_append]
              omega
        · cases hp
          refine usesOk_data_grow st _ hok ?_ rfl
          simp only [List.length_append]
          omega

/-- Pass 1 preserves the backpatch invariant line by line. -/
theorem processLine_usesOk (st : AsmState) (line : List Char) (st2 : AsmState)
    (hp : processLine st line = some st2) (hok : UsesOk st) : UsesOk st2 := by
  unfold processLine at hp
  split at hp
  · cases hp; exact hok
  · split at hp
    · exact absurd hp (by simp)
    · split at hp
      · cases hp
        exact ⟨hok.1, hok.2⟩
      · split at hp
        · rw [Option.map_eq_some'] at hp
          obtain ⟨iw, h1, h2⟩ := hp
          subst h2
          exact usesOk_data_grow st _ hok (by simp) rfl
        · rw [Option.map_eq_some'] at hp
          obtain ⟨iw, h1, h2⟩ := hp
          subst h2
          exact usesOk_data_grow st _ hok (by simp) rfl
        · split at hp
          · exact absurd hp (by simp)
          · rw [Option.map_eq_some'] at hp
            obtain ⟨r, h1, h2⟩ := hp
            subst h2
            exact encode_address_usesOk _ _ _ h1
              (usesOk_data_grow st _ hok (by simp) rfl)
        · split at hp
          · exact absurd hp (by simp)
          · rw [Option.map_eq_some'] at hp
            obtain ⟨r, h1, h2⟩ := hp
            subst h2
            exact encode_address_usesOk _ _ _ h1
              (usesOk_data_grow st _ hok (by simp) rfl)
        · split at hp
          · exact absurd hp (by simp)
          · rw [Option.map_eq_some'] at hp
            obtain ⟨r, h1, h2⟩ := hp
            subst h2
            exact encode_address_usesOk _ _ _ h1
              (usesOk_data_grow st _ hok (by simp) rfl)
        · split at hp
          · exact absurd hp (by simp)
          · rw [Option.map_eq_some'] at hp
            obtain ⟨r, h1, h2⟩ := hp
            subst h2
            exact encode_address_usesOk _ _ _ h1
              (usesOk_data_grow st _ hok (by simp) rfl)
        · rw [Option.map_eq_some'] at hp
          obtain ⟨r, h1, h2⟩ := hp
          subst h2
          exact encode_address_usesOk _ _ _ h1
            (usesOk_data_grow st _ hok (by simp) rfl)
        · split at hp
          · exact absurd hp (by simp)
          · rw [Option.map_eq_some'] at hp
            obtain ⟨r, h1, h2⟩ := hp
            subst h2
            exact encode_address_usesOk _ _ _ h1
              (usesOk_data_grow st _ hok (by simp) rfl)
        · split at hp
          · exact encodeAlu_usesOk _ _ _ _ _ _ hp hok
          · exact encodeAlu_usesOk _ _ _ _ _ _ hp hok
          · exact encodeAlu_usesOk _ _ _ _ _ _ hp hok
          · exact encodeAlu_usesOk _ _ _ _ _ _ hp hok

theorem pass1_usesOk : ∀ (lines : List (List Char)) (st st2 : AsmState),
    pass1 lines st = some st2 → UsesOk st → UsesOk st2 := by
  intro lines
  induction lines with
  | nil =>
    intro st st2 hp hok
    cases hp
    exact hok
  | cons line rest ih =>
    intro st st2 hp hok
    simp only [pass1] at hp
    cases hq : processLine st line with
    | none => rw [hq] at hp; exact absurd hp (by simp)
    | some stm =>
      rw [hq] at hp
      exact ih stm st2 hp (processLine_usesOk st line stm hq hok)

theorem patchUses_preserves : ∀ (uses : List (String × Nat)) (data : List Nat)
    (labels : List (String × Nat)) (out : List Nat),
    patchUses data uses labels = some out →
    ∀ j, (∀ u ∈ uses, j < u.2 ∨ u.2 + 2 ≤ j) → out.getD j 0 = data.getD j 0 := by
  intro uses
  induction uses with
  | nil =>
    intro data labels out hp j hj
    cases hp
    rfl
  | cons u0 rest ih =>
    intro data labels out hp j hj
    obtain ⟨name, location⟩ := u0
    unfold patchUses at hp
    split at hp
    · exact absurd hp (by simp)
    · split at hp
      · have hhead := hj (name, location) (List.mem_cons_self _ _)
        simp only at hhead
        have h2 := ih _ labels out hp j
          (fun u hu => hj u (List.mem_cons_of_mem _ hu))
        rw [h2]
        have e1 : location ≠ j := by omega
        have e2 : location + 1 ≠ j := by omega
        simp [List.getD_eq_getElem?_getD, List.getElem?_set_ne e1,
          List.getElem?_set_ne e2]
      · exact absurd hp (by simp)

theorem patchUses_length : ∀ (uses : List (String × Nat)) (data : List Nat)
    (labels : List (String × Nat)) (out : List Nat),
    patchUses data uses labels = some out → out.length = data.length := by
  intro uses
  induction uses with
  | nil =>
    intro data labels out hp
    cases hp
    rfl
  | cons u0 rest ih =>
    intro data labels out hp
    obtain ⟨name, location⟩ := u0
    unfold patchUses at hp
    split at hp
    · exact absurd hp (by simp)
    · split at hp
      · have := ih _ labels out hp
        simpa using this
      · exact absurd hp (by simp)

theorem patchUses_result : ∀ (uses : List (String × Nat)) (data : List Nat)
    (labels : List (String × Nat)) (out : List Nat),
    (∀ u ∈ uses, u.2 + 2 ≤ data.length) →
    uses.Pairwise (fun u v => u.2 + 2 ≤ v.2) →
    patchUses data uses labels = some out →
    ∀ u ∈ uses, ∃ val, lookupLabel labels u.1 = some val ∧
      out.getD u.2 0 = val % 2 ^ 16 / 256 ∧
      out.getD (u.2 + 1) 0 = val % 2 ^ 16 % 256 := by
  intro uses
  induction uses with
  | nil =>
    intro data labels out h1 h2 hp u hu
    simp at hu
  | cons u0 rest ih =>
    intro data labels out h1 h2 hp u hu
    obtain ⟨name, location⟩ := u0
    have hbound := h1 (name, location) (List.mem_cons_self _ _)
    simp only at hbound
    unfold patchUses at hp
    split at hp
    · exact absurd hp (by simp)
    · next val heq =>
      split at hp
      · next hloc =>
        obtain ⟨hrel, h2r⟩ := List.pairwise_cons.mp h2
        rcases List.mem_cons.mp hu with rfl | hu2
        · refine ⟨val, heq, ?_, ?_⟩
          · rw [patchUses_preserves rest _ labels out hp location
              (fun u2 hu2 => by have := hrel u2 hu2; omega)]
            have e : location ≠ location + 1 := by omega
            have hlt : location < data.length := by omega
            simp [List.getD_eq_getElem?_getD, List.getElem?_set_ne e,
              List.getElem?_set_self, List.length_set, hlt]
          · rw [patchUses_preserves rest _ labels out hp (location + 1)
              (fun u2 hu2 => by have := hrel u2 hu2; omega)]
            simp [List.getD_eq_getElem?_getD, List.getElem?_set_self,
              List.length_set, hloc]
        · refine ih _ labels out ?_ h2r hp u hu2
          intro u2 hu2m
          have := h1 u2 (List.mem_cons_of_mem _ hu2m)
          simpa using this
      · exact absurd hp (by simp)

theorem patchUses_missing_label : ∀ (uses : List (String × Nat))
    (data : List Nat) (labels : List (String × Nat)),
    (∃ u ∈ uses, lookupLabel labels u.1 = none) →
    patchUses data uses labels = none := by
  intro uses
  induction uses with
  | nil =>
    intro data labels h
    simp at h
  | cons u0 rest ih =>
    intro data labels h
    obtain ⟨name, location⟩ := u0
    unfold patchUses
    split
    · rfl
    · next val heq =>
      obtain ⟨u, hu, hnone⟩ := h
      rcases List.mem_cons.mp hu with rfl | hu2
      · simp only at hnone
        rw [hnone] at heq
        exact absurd heq (by simp)
      · split
        · exact ih _ labels ⟨u, hu2, hnone⟩
        · rfl

/-- C8: backpatching makes forward and backward label references
byte-identical: whenever assembly succeeds, every recorded label use ends
up holding the big-endian 16-bit offset of its label, regardless of
whether the use was recorded before or after the label's definition; a
forward-referencing program and a backward-referencing program whose
label resolves to the same offset 3 produce the identical referencing
instruction bytes [96, 0, 3]; and a use of a label that is never defined
makes assembly fail. -/
theorem label_backpatch :
    (∀ (text : String) (st : AsmState) (out : List Nat),
      pass1 (splitListBy (fun c => c = Char.ofNat 10) text.data) ⟨[], [], []⟩ = some st →
      patchUses st.data st.uses st.labels = some out →
      ∀ u ∈ st.uses, ∃ val, lookupLabel st.labels u.1 = some val ∧
        out.getD u.2 0 = val % 2 ^ 16 / 256 ∧
        out.getD (u.2 + 1) 0 = val % 2 ^ 16 % 256) ∧
    (∀ data uses labels, (∃ u ∈ uses, lookupLabel labels u.1 = none) →
      patchUses data uses labels = none) ∧
    (assemble forwardProg = some [96, 0, 3] ∧
     assemble backwardProg = some [112, 0, 0, 96, 0, 3] ∧
     ([96, 0, 3] : List Nat) = List.drop 3 [112, 0, 0, 96, 0, 3]) ∧
    assemble "jmp nowhere" = none := by
  refine ⟨?_, ?_, ⟨by decide, by decide, by decide⟩, by decide⟩
  · intro text st out h1 h2
    have hok : UsesOk st := by
      refine pass1_usesOk _ _ _ h1 ⟨?_, ?_⟩
      · intro u hu
        exact absurd hu (List.not_mem_nil u)
      · exact List.Pairwise.nil
    exact patchUses_result st.uses st.data st.labels out hok.1 hok.2 h2
  · intro data uses labels h
    exact patchUses_missing_label uses data labels h

theorem label_backpatch_witness :
    (∃ val, lookupLabel [("l", 3)] "l" = some val ∧
      ([96, 0, 3] : List Nat).getD 1 0 = val % 2 ^ 16 / 256 ∧
      ([96, 0, 3] : List Nat).getD (1 + 1) 0 = val % 2 ^ 16 % 256) ∧
    patchUses [96, 0, 0] [("x", 1)] [] = none :=
  ⟨label_backpatch.1 forwardProg ⟨[96, 0, 0], [("l", 3)], [("l", 1)]⟩ [96, 0, 3]
      (by decide) (by decide) ("l", 1) (by decide),
   label_backpatch.2.1 [96, 0, 0] [("x", 1)] [] ⟨("x", 1), by decide, by decide⟩⟩

end Lemurs

